import Mathlib

/-!
Shallow embedding of the blob content analysis logic of
src/ext/rugged/rugged_blob.c: source-line counting (rb_git_blob_sloc),
line-bounded and byte-bounded extraction (rb_git_blob_text_GET,
rb_git_blob_content_GET), the chunk-read callback (cb_blob__get__chunk),
and binary classification. A blob buffer is modelled as a list of byte
values (List Nat); the integer Ruby arguments are modelled as Option Int
(none for a nil argument).
-/

set_option maxHeartbeats 1000000

namespace Rugged

/-- C-locale isspace on a byte value: space (32), tab (9), newline (10),
vertical tab (11), form feed (12), carriage return (13). -/
def isspace (b : Nat) : Bool :=
  b = 32 || (9 ≤ b && b ≤ 13)

/-- The inner whitespace-skipping loop of rb_git_blob_sloc
(rugged_blob.c lines 353 to 354): advance past the run of whitespace
bytes at the head of the remaining input. -/
def skipWhitespace : List Nat → List Nat
  | [] => []
  | b :: rest => if isspace b then skipWhitespace rest else b :: rest

/-- The outer scanning loop of rb_git_blob_sloc (rugged_blob.c lines
351 to 358): each newline byte consumed increments the count, and right
after a counted newline the run of following whitespace bytes is skipped
before the scan resumes. -/
def slocLoop : List Nat → Nat
  | [] => 0
  | b :: rest =>
      if b = 10 then 1 + slocLoop (skipWhitespace rest) else slocLoop rest
  termination_by l => l.length
  decreasing_by
  · have h : ∀ l : List Nat, (skipWhitespace l).length ≤ l.length := by
      intro l
      induction l with
      | nil => simp [skipWhitespace]
      | cons x xs ih =>
        simp only [skipWhitespace]
        split
        · exact Nat.le_succ_of_le ih
        · exact Nat.le_refl _
    simpa using Nat.lt_succ_of_le (h rest)
  · simp

/-- rb_git_blob_sloc (rugged_blob.c lines 335 to 365): 0 for the empty
buffer; otherwise the count of the scanning loop, plus one when the last
byte of the buffer (data[-1] at loop exit) is not a newline. -/
def rb_git_blob_sloc (data : List Nat) : Nat :=
  if data = [] then 0
  else if data.getLast? = some 10 then slocLoop data else slocLoop data + 1

/-- The line-bounded cut of rb_git_blob_text_GET (rugged_blob.c lines
76 to 82): consume bytes while fewer than maxlines newlines have been
seen and the buffer has not ended; the result is the consumed prefix
(the loop computes the index i and the function keeps the first i
bytes). -/
def takeLines : List Nat → Nat → List Nat
  | _, 0 => []
  | [], _ + 1 => []
  | b :: rest, n + 1 => b :: takeLines rest (if b = 10 then n else n + 1)

/-- rb_git_blob_text_GET (rugged_blob.c lines 52 to 96), restricted to
the byte-level extraction it performs: with a nil max_lines argument the
whole buffer is kept; with a non-negative max_lines the buffer is cut at
the line-bounded scan; with a negative max_lines the whole buffer is
kept. Encoding tagging is a separate concern and does not change the
bytes. -/
def rb_git_blob_text_GET (data : List Nat) (max_lines : Option Int) : List Nat :=
  match max_lines with
  | none => data
  | some n => if 0 ≤ n then takeLines data n.toNat else data

/-- rb_git_blob_content_GET (rugged_blob.c lines 108 to 144), restricted
to the byte-level extraction it performs: with a nil max_bytes argument
the whole buffer is kept; otherwise the size is reduced to maxbytes only
when maxbytes is non-negative and strictly below the buffer length. -/
def rb_git_blob_content_GET (data : List Nat) (max_bytes : Option Int) : List Nat :=
  match max_bytes with
  | none => data
  | some n => if 0 ≤ n ∧ n.toNat < data.length then data.take n.toNat else data

/-- Outcome of one call to the read method of the chunk source, as seen
by cb_blob__get__chunk: the method returned a String with these bytes,
returned nil or some non-String value, or raised an exception. -/
inductive ReadResult
  | str (s : List Nat)
  | nonString
  | raised

/-- The rb_rescue call in cb_blob__get__chunk (rugged_blob.c line 256):
rb_read_check performs the read, and when it raises, rb_read_failed
returns Qnil, so a raised exception becomes the same non-String value
that the following type check rejects. -/
def rb_rescue_read : ReadResult → ReadResult
  | .raised => .nonString
  | r => r

/-- cb_blob__get__chunk (rugged_blob.c lines 248 to 266): the rescued
read result is checked; nil or a non-String yields a zero-length chunk
(return value 0, end of stream); a String is copied up to max_length
bytes (safe_len = min of the string length and max_length) and safe_len
is returned. The result pairs the bytes copied into the destination
buffer with the returned length. -/
def cb_blob__get__chunk (max_length : Nat) (read_result : ReadResult) :
    List Nat × Nat :=
  match rb_rescue_read read_result with
  | .str s =>
      let safe_len := if s.length > max_length then max_length else s.length
      (s.take safe_len, safe_len)
  | _ => ([], 0)

/-- Modelled from the spec: git_blob_create_fromchunks is implemented in
the external object store library (libgit2), not in this repository; per
the spec it is a pull loop over the chunk source in which a callback
return of zero bytes ends the stream and the blob is created from the
bytes accumulated so far. The chunk source is modelled as the list of
its successive read outcomes, each handed to cb_blob__get__chunk with
the same buffer capacity max_length. -/
def git_blob_create_fromchunks (max_length : Nat) : List ReadResult → List Nat
  | [] => []
  | r :: rest =>
      let c := cb_blob__get__chunk max_length r
      if c.2 = 0 then [] else c.1 ++ git_blob_create_fromchunks max_length rest

/-- A printable byte for the binary heuristic: strictly above 0x1F and
strictly below 0x7F. -/
def isPrintableByte (b : Nat) : Bool := 0x1F < b && b < 0x7F

/-- Number of printable bytes in a buffer. -/
def printableCount (l : List Nat) : Nat := (l.filter isPrintableByte).length

/-- Number of non-printable bytes in a buffer: neither printable, nor
NUL, nor whitespace. -/
def nonprintableCount (l : List Nat) : Nat :=
  (l.filter (fun b => !isPrintableByte b && !(b = 0) && !isspace b)).length

/-- Modelled from the spec: git_blob_is_binary is implemented in the
external object store library (libgit2), not in this repository; per the
spec it examines at most the first 4000 bytes and classifies the buffer
as binary when a NUL byte is found there, or when the ratio of
non-printable to printable bytes exceeds the reference threshold of
mainstream source-control tooling (binary when the printable count
divided by 128 is below the non-printable count). -/
def git_blob_is_binary (data : List Nat) : Bool :=
  let window := data.take 4000
  decide (0 ∈ window) ||
    decide (printableCount window / 128 < nonprintableCount window)

/-! Helper lemmas shared by the claim theorems. -/

theorem skipWhitespace_append_of_space (w l : List Nat)
    (hw : ∀ x ∈ w, isspace x = true) :
    skipWhitespace (w ++ l) = skipWhitespace l := by
  induction w with
  | nil => rfl
  | cons x xs ih =>
    have hx := hw x (List.mem_cons_self x xs)
    simp only [List.cons_append, skipWhitespace, hx, if_true]
    exact ih fun y hy => hw y (List.mem_cons_of_mem x hy)

theorem skipWhitespace_cons_of_not_space (b : Nat) (l : List Nat)
    (hb : isspace b = false) : skipWhitespace (b :: l) = b :: l := by
  simp [skipWhitespace, hb]

theorem takeLines_nil (n : Nat) : takeLines [] n = [] := by
  cases n <;> rfl

theorem takeLines_of_count_lt :
    ∀ (data : List Nat) (n : Nat), data.count 10 < n → takeLines data n = data := by
  intro data
  induction data with
  | nil => intro n _; exact takeLines_nil n
  | cons b rest ih =>
    intro n hc
    cases n with
    | zero => exact absurd hc (Nat.not_lt_zero _)
    | succ m =>
      by_cases hb : b = 10
      · subst hb
        have h2 : rest.count 10 < m := by
          simp only [List.count_cons] at hc
          simp at hc
          omega
        simp [takeLines, ih m h2]
      · have h2 : rest.count 10 < m + 1 := by
          simp only [List.count_cons] at hc
          simp [hb] at hc
          omega
        simp [takeLines, hb, ih (m + 1) h2]

theorem mem_of_getLast?_eq : ∀ l : List Nat, l.getLast? = some 10 → 10 ∈ l := by
  intro l
  induction l with
  | nil => intro h; simp at h
  | cons b rest ih =>
    intro h
    cases rest with
    | nil =>
      simp at h
      simp [h]
    | cons c r =>
      have := ih (by simpa [List.getLast?_cons_cons] using h)
      exact List.mem_cons_of_mem b this

theorem count_pos_of_mem : ∀ l : List Nat, 10 ∈ l → 1 ≤ l.count 10 := by
  intro l
  induction l with
  | nil => intro h; cases h
  | cons b rest ih =>
    intro h
    rcases List.mem_cons.mp h with h1 | h2
    · simp [List.count_cons, ← h1]
    · have := ih h2
      simp only [List.count_cons]
      omega

theorem takeLines_of_count_le :
    ∀ (data : List Nat) (n : Nat), data.count 10 ≤ n →
      (data = [] ∨ data.getLast? = some 10) → takeLines data n = data := by
  intro data
  induction data with
  | nil => intro n _ _; exact takeLines_nil n
  | cons b rest ih =>
    intro n hc hl
    have hl' : (b :: rest).getLast? = some 10 := hl.resolve_left (by simp)
    cases rest with
    | nil =>
      have hb : b = 10 := by simpa using hl'
      subst hb
      have h1 : 1 ≤ n := by
        simp [List.count_cons] at hc
        omega
      cases n with
      | zero => omega
      | succ m => simp [takeLines, takeLines_nil]
    | cons c rest' =>
      have hlast : (c :: rest').getLast? = some 10 := by
        simpa [List.getLast?_cons_cons] using hl'
      by_cases hb : b = 10
      · subst hb
        have h1 : (c :: rest').count 10 + 1 ≤ n := by
          rw [List.count_cons_self] at hc
          omega
        cases n with
        | zero => omega
        | succ m =>
          have h2 : (c :: rest').count 10 ≤ m := by omega
          simp [takeLines, ih m h2 (Or.inr hlast)]
      · have h1 : (c :: rest').count 10 ≤ n := by
          rw [List.count_cons_of_ne (fun h => hb h.symm)] at hc
          exact hc
        have hpos := count_pos_of_mem _ (mem_of_getLast?_eq _ hlast)
        cases n with
        | zero => omega
        | succ m =>
          simp [takeLines, hb, ih (m + 1) h1 (Or.inr hlast)]

theorem slocLoop_pos_of_mem : ∀ l : List Nat, 10 ∈ l → 1 ≤ slocLoop l := by
  intro l
  induction l with
  | nil => intro h; cases h
  | cons b rest ih =>
    intro h
    by_cases hb : b = 10
    · subst hb
      have h1 : slocLoop (10 :: rest) = 1 + slocLoop (skipWhitespace rest) := by
        simp [slocLoop]
      omega
    · have hmem : 10 ∈ rest := by
        rcases List.mem_cons.mp h with h1 | h2
        · exact absurd h1.symm hb
        · exact h2
      have h1 : slocLoop (b :: rest) = slocLoop rest := by simp [slocLoop, hb]
      have := ih hmem
      omega

/-! Claim theorems. -/

/-- C1: sloc follows the exact byte-scan rule: each newline byte
encountered increments the count, and immediately after each counted
newline the scan skips any run of whitespace bytes before resuming, so
that blank lines consisting solely of whitespace collapse into the count
of the line before them; in particular sloc of three newline bytes is 1
and sloc of three newline-terminated one-letter lines is 3. -/
theorem sloc_scan_rule :
    rb_git_blob_sloc [10, 10, 10] = 1 ∧
    rb_git_blob_sloc [97, 10, 98, 10, 99, 10] = 3 ∧
    ∀ (w s : List Nat) (b : Nat), (∀ x ∈ w, isspace x = true) →
      isspace b = false →
      slocLoop (10 :: (w ++ b :: s)) = 1 + slocLoop (b :: s) := by
  refine ⟨by simp [rb_git_blob_sloc, slocLoop, skipWhitespace, isspace],
          by simp [rb_git_blob_sloc, slocLoop, skipWhitespace, isspace], ?_⟩
  intro w s b hw hb
  have h1 : slocLoop (10 :: (w ++ b :: s)) =
      1 + slocLoop (skipWhitespace (w ++ b :: s)) := by
    simp [slocLoop]
  rw [h1, skipWhitespace_append_of_space w (b :: s) hw,
      skipWhitespace_cons_of_not_space b s hb]

/-- Witness for sloc_scan_rule at the whitespace run [32, 9] followed by
the non-whitespace byte 97. -/
theorem sloc_scan_rule_witness :
    slocLoop [10, 32, 9, 97] = 1 + slocLoop [97] :=
  sloc_scan_rule.2.2 [32, 9] [] 97 (by decide) (by decide)

/-- C2: for every non-empty buffer whose final byte is not a newline,
sloc counts the trailing unterminated line exactly once more than the
newline scan alone yields; the buffer a, newline, b, newline, c gives 3. -/
theorem sloc_unterminated_tail :
    rb_git_blob_sloc [97, 10, 98, 10, 99] = 3 ∧
    ∀ data : List Nat, data ≠ [] → data.getLast? ≠ some 10 →
      rb_git_blob_sloc data = slocLoop data + 1 := by
  refine ⟨by simp [rb_git_blob_sloc, slocLoop, skipWhitespace, isspace], ?_⟩
  intro data h1 h2
  simp [rb_git_blob_sloc, h1, h2]

/-- Witness for sloc_unterminated_tail at the buffer [97]. -/
theorem sloc_unterminated_tail_witness :
    rb_git_blob_sloc [97] = slocLoop [97] + 1 :=
  sloc_unterminated_tail.2 [97] (by decide) (by decide)

/-- C3: sloc of the empty buffer is 0. -/
theorem sloc_empty : rb_git_blob_sloc [] = 0 := rfl

/-- C4 counterexample: for the buffer a, newline, b and N = 1 we have
N non-negative and N at least the total number of newlines in the
buffer, yet the line-bounded extraction does not return the full buffer
(it returns the two bytes a, newline). -/
theorem text_lines_full_buffer_cex :
    (0 : Int) ≤ 1 ∧
    ([97, 10, 98] : List Nat).count 10 ≤ (1 : Int).toNat ∧
    rb_git_blob_text_GET [97, 10, 98] (some 1) ≠ [97, 10, 98] := by
  decide

/-- C4 amended: line-bounded extraction returns exactly the prefix
obtained by scanning forward and stopping as soon as N newlines have
been consumed or the buffer ends, with the Nth newline included:
extracting 2 lines from the buffer x, newline, y, newline, z, newline
yields the first four bytes; for N strictly greater than the total
number of newlines the full buffer is returned, and also for N at least
that number when the buffer is empty or ends with a newline; N below 0
behaves as unlimited. -/
theorem text_lines_amended :
    rb_git_blob_text_GET [120, 10, 121, 10, 122, 10] (some 2) =
      [120, 10, 121, 10] ∧
    (∀ (data : List Nat) (N : Int), 0 ≤ N → data.count 10 < N.toNat →
      rb_git_blob_text_GET data (some N) = data) ∧
    (∀ (data : List Nat) (N : Int), 0 ≤ N → data.count 10 ≤ N.toNat →
      (data = [] ∨ data.getLast? = some 10) →
      rb_git_blob_text_GET data (some N) = data) ∧
    (∀ (data : List Nat) (N : Int), N < 0 →
      rb_git_blob_text_GET data (some N) = data) := by
  refine ⟨by decide, ?_, ?_, ?_⟩
  · intro data N hN hc
    simp [rb_git_blob_text_GET, hN, takeLines_of_count_lt data N.toNat hc]
  · intro data N hN hc hl
    simp [rb_git_blob_text_GET, hN, takeLines_of_count_le data N.toNat hc hl]
  · intro data N hN
    have h : ¬ (0 ≤ N) := by omega
    simp [rb_git_blob_text_GET, h]

/-- Witness for text_lines_amended at the buffer [97] with N = 5. -/
theorem text_lines_amended_witness :
    rb_git_blob_text_GET [97] (some 5) = [97] :=
  text_lines_amended.2.1 [97] 5 (by decide) (by decide)

/-- C5: byte-bounded extraction returns the first min(N, length) bytes
when N is non-negative (so N = 0 yields the empty result), and the full
buffer when N is negative; out-of-range N is clamped, never rejected. -/
theorem content_bytes_clamp :
    ∀ (data : List Nat) (N : Int),
      (0 ≤ N → rb_git_blob_content_GET data (some N) =
        data.take (min N.toNat data.length)) ∧
      (N < 0 → rb_git_blob_content_GET data (some N) = data) ∧
      rb_git_blob_content_GET data (some 0) = [] := by
  intro data N
  refine ⟨?_, ?_, ?_⟩
  · intro hN
    by_cases h : N.toNat < data.length
    · have hmin : min N.toNat data.length = N.toNat :=
        Nat.min_eq_left (Nat.le_of_lt h)
      simp [rb_git_blob_content_GET, hN, h, hmin]
    · have hmin : min N.toNat data.length = data.length :=
        Nat.min_eq_right (Nat.le_of_not_lt h)
      simp [rb_git_blob_content_GET, hN, h, hmin, List.take_length]
  · intro hN
    have h : ¬ (0 ≤ N ∧ N.toNat < data.length) :=
      fun hh => absurd hh.1 (not_le.mpr hN)
    simp [rb_git_blob_content_GET, h]
  · cases data <;> simp [rb_git_blob_content_GET]

/-- Witness for content_bytes_clamp at the buffer [97, 98, 99] with
N = 2. -/
theorem content_bytes_clamp_witness :
    rb_git_blob_content_GET [97, 98, 99] (some 2) = [97, 98] :=
  (content_bytes_clamp [97, 98, 99] 2).1 (by decide)

/-- C6: unlimited extraction (text or content called with a nil bound or
a negative bound) returns a byte sequence equal to the original
buffer. -/
theorem extract_unlimited_roundtrip :
    ∀ data : List Nat,
      rb_git_blob_text_GET data none = data ∧
      rb_git_blob_content_GET data none = data ∧
      ∀ N : Int, N < 0 →
        rb_git_blob_text_GET data (some N) = data ∧
        rb_git_blob_content_GET data (some N) = data := by
  intro data
  refine ⟨rfl, rfl, ?_⟩
  intro N hN
  constructor
  · have h : ¬ (0 ≤ N) := not_le.mpr hN
    simp [rb_git_blob_text_GET, h]
  · have h : ¬ (0 ≤ N ∧ N.toNat < data.length) :=
      fun hh => absurd hh.1 (not_le.mpr hN)
    simp [rb_git_blob_content_GET, h]

/-- Witness for extract_unlimited_roundtrip at the buffer [1, 2, 3] with
N = -1. -/
theorem extract_unlimited_roundtrip_witness :
    rb_git_blob_text_GET [1, 2, 3] (some (-1)) = [1, 2, 3] :=
  ((extract_unlimited_roundtrip [1, 2, 3]).2.2 (-1) (by decide)).1

/-- C7: a failure raised by the chunk source during a read is swallowed
and treated as end of stream: the per-chunk callback reports zero bytes,
the stream ends there, and the blob holds exactly the bytes of the
chunks already read (each truncated to the buffer capacity), regardless
of what follows the failing read. -/
theorem chunk_read_error_swallowed :
    (∀ m : Nat, cb_blob__get__chunk m ReadResult.raised = ([], 0)) ∧
    ∀ (m : Nat) (pre rest : List ReadResult),
      (∀ r ∈ pre, (cb_blob__get__chunk m r).2 ≠ 0) →
      git_blob_create_fromchunks m (pre ++ ReadResult.raised :: rest) =
        (pre.map fun r => (cb_blob__get__chunk m r).1).flatten := by
  refine ⟨fun m => rfl, ?_⟩
  intro m pre rest h
  induction pre with
  | nil => rfl
  | cons r pre' ih =>
    have hr : (cb_blob__get__chunk m r).2 ≠ 0 := h r (List.mem_cons_self r pre')
    simp only [List.cons_append, List.map_cons, List.flatten_cons,
      git_blob_create_fromchunks]
    simp [hr, ih fun x hx => h x (List.mem_cons_of_mem r hx)]

/-- Witness for chunk_read_error_swallowed: one successful chunk of two
bytes, then a raising read, then an unread chunk; the blob holds just
the first two bytes. -/
theorem chunk_read_error_swallowed_witness :
    git_blob_create_fromchunks 4
      [ReadResult.str [5, 6], ReadResult.raised, ReadResult.str [7]] = [5, 6] :=
  chunk_read_error_swallowed.2 4 [ReadResult.str [5, 6]] [ReadResult.str [7]]
    (by decide)

/-- C8: the binary classifier is a total boolean function of the buffer
that classifies it as binary exactly when a NUL byte occurs in the first
4000 bytes or the non-printable to printable ratio exceeds the reference
threshold; the empty buffer is not binary, the ASCII bytes of hello
world are not binary, and a, NUL, b is binary. -/
theorem is_binary_heuristic :
    git_blob_is_binary [] = false ∧
    git_blob_is_binary [104, 101, 108, 108, 111, 32, 119, 111, 114, 108, 100] =
      false ∧
    git_blob_is_binary [97, 0, 98] = true ∧
    ∀ data : List Nat,
      git_blob_is_binary data = true ↔
        (0 ∈ data.take 4000 ∨
          printableCount (data.take 4000) / 128 <
            nonprintableCount (data.take 4000)) := by
  refine ⟨by decide, by decide, by decide, ?_⟩
  intro data
  simp [git_blob_is_binary]

/-- C9: every non-empty buffer has sloc at least 1, including buffers
made up entirely of whitespace with no newline, such as three spaces. -/
theorem sloc_nonempty_pos :
    rb_git_blob_sloc [32, 32, 32] = 1 ∧
    ∀ data : List Nat, data ≠ [] → 1 ≤ rb_git_blob_sloc data := by
  refine ⟨by simp [rb_git_blob_sloc, slocLoop], ?_⟩
  intro data h
  by_cases hl : data.getLast? = some 10
  · have h1 := slocLoop_pos_of_mem data (mem_of_getLast?_eq data hl)
    have h2 : rb_git_blob_sloc data = slocLoop data := by
      simp [rb_git_blob_sloc, h, hl]
    omega
  · have h2 : rb_git_blob_sloc data = slocLoop data + 1 := by
      simp [rb_git_blob_sloc, h, hl]
    omega

/-- Witness for sloc_nonempty_pos at the buffer [97]. -/
theorem sloc_nonempty_pos_witness : 1 ≤ rb_git_blob_sloc [97] :=
  sloc_nonempty_pos.2 [97] (by decide)

/-- C10: the chunk callback never copies more than max_length bytes into
the destination buffer, even when the read returns a longer string (the
copied bytes are the string truncated to min of its length and
max_length, and the reported length is bounded by max_length); a read
returning nil or a non-String value yields zero bytes and ends the
stream instead of being copied or raised. -/
theorem chunk_callback_safety :
    ∀ (m : Nat) (s : List Nat),
      (cb_blob__get__chunk m (ReadResult.str s)).1 =
        s.take (min s.length m) ∧
      (cb_blob__get__chunk m (ReadResult.str s)).1.length ≤ m ∧
      (cb_blob__get__chunk m (ReadResult.str s)).2 ≤ m ∧
      cb_blob__get__chunk m ReadResult.nonString = ([], 0) ∧
      cb_blob__get__chunk m ReadResult.raised = ([], 0) := by
  intro m s
  have hk : (if s.length > m then m else s.length) = min s.length m := by
    by_cases h : s.length > m
    · simp [h, Nat.min_eq_right (Nat.le_of_lt h)]
    · simp [h, Nat.min_eq_left (Nat.le_of_not_lt h)]
  have hcb : cb_blob__get__chunk m (ReadResult.str s) =
      (s.take (min s.length m), min s.length m) := by
    simp [cb_blob__get__chunk, rb_rescue_read, hk]
  refine ⟨by rw [hcb], ?_, ?_, rfl, rfl⟩
  · simp only [hcb, List.length_take]
    exact le_trans (Nat.min_le_left _ _) (Nat.min_le_right _ _)
  · simp only [hcb]
    exact Nat.min_le_right _ _

end Rugged
